import Mathlib

/-!
Shallow embedding of the BioForge hybrid-retrieval engine
(`python-backend/services/rag_service.py` and
`python-backend/services/document_processor.py`) together with proofs
checking the natural-language specification against it.

Modelling conventions:
* Python `dict` (insertion ordered) is modelled as an association list
  `List (String × α)`; setting an existing key updates the value in place
  (keeping its position), setting a fresh key appends it, exactly as a
  Python dict behaves.
* Python floats `1.0 / (k + rank + 1)` are modelled as exact rationals `ℚ`,
  the idealisation the specification itself uses.
* Python strings are `String` (ids) or `List Char` (chunker text, where
  index arithmetic and slicing matter).
* External effects (the chroma vector backend, the OpenAI embedding
  endpoint, the rank_bm25 library) are oracles passed as arguments;
  exceptions raised by them are modelled by `Option`/`Bool` outcomes.
-/

namespace BioForge

/-- Lookup in a Python-dict association list. -/
def dget? {α : Type} : List (String × α) → String → Option α
  | [], _ => none
  | (k, v) :: rest, key => if k = key then some v else dget? rest key

/-- `d.get(key, dflt)` of a Python dict. -/
def dgetD {α : Type} (d : List (String × α)) (key : String) (dflt : α) : α :=
  (dget? d key).getD dflt

/-- `d[key] = v` of a Python dict: update in place if the key is present
(keeping its position), append otherwise. -/
def dset {α : Type} : List (String × α) → String → α → List (String × α)
  | [], key, v => [(key, v)]
  | (k, w) :: rest, key, v =>
    if k = key then (k, v) :: rest else (k, w) :: dset rest key v

/-- `key in d` of a Python dict. -/
def dmem {α : Type} (d : List (String × α)) (key : String) : Bool :=
  (dget? d key).isSome

/-- One formatted retrieval result (`{"id": ..., "content": ...}` dict);
the merge code reads only the `id` field and passes the record through. -/
structure SearchResult where
  id : String
  content : String
deriving DecidableEq

/-- One pass of `RAGService._rrf_merge` over one ranked list
(`for rank, r in enumerate(results)`): for each record with a non-empty id,
add `1/(k+rank+1)` to its score; record the result in `seen`
(`overwrite = true` for the vector pass, which always assigns `seen[rid] = r`;
`overwrite = false` for the bm25 pass, which assigns only when absent). -/
def rrfPass (k : ℚ) (overwrite : Bool) :
    List SearchResult → ℕ → List (String × ℚ) → List (String × SearchResult) →
    List (String × ℚ) × List (String × SearchResult)
  | [], _, scores, seen => (scores, seen)
  | r :: rest, rank, scores, seen =>
    if r.id = "" then
      rrfPass k overwrite rest (rank + 1) scores seen
    else
      let scores' := dset scores r.id (dgetD scores r.id 0 + 1 / (k + rank + 1))
      let seen' := if overwrite || !(dmem seen r.id) then dset seen r.id r else seen
      rrfPass k overwrite rest (rank + 1) scores' seen'

/-- Stable descending insertion: the new element goes after every element
with a greater-or-equal score.  Folding this left over a list is
extensionally Python's stable `sorted(key = minus score)`. -/
def insertDescQ (x : String × ℚ) : List (String × ℚ) → List (String × ℚ)
  | [] => [x]
  | y :: ys => if x.2 ≤ y.2 then y :: insertDescQ x ys else x :: y :: ys

/-- Stable sort by descending score, processing the input left to right. -/
def sortDescQ : List (String × ℚ) → List (String × ℚ) → List (String × ℚ)
  | acc, [] => acc
  | acc, x :: xs => sortDescQ (insertDescQ x acc) xs

/-- Scores dict after both passes of `RAGService._rrf_merge`. -/
def rrfScores (k : ℚ) (vec lex : List SearchResult) : List (String × ℚ) :=
  (rrfPass k false lex 0 (rrfPass k true vec 0 [] []).1 (rrfPass k true vec 0 [] []).2).1

/-- Seen dict after both passes of `RAGService._rrf_merge`. -/
def rrfSeen (k : ℚ) (vec lex : List SearchResult) : List (String × SearchResult) :=
  (rrfPass k false lex 0 (rrfPass k true vec 0 [] []).1 (rrfPass k true vec 0 [] []).2).2

/-- `RAGService._rrf_merge(vector_results, bm25_results, k)`: reciprocal
rank fusion.  `sorted(scores.items(), key = minus score)` is the stable
descending sort of the insertion-ordered scores dict; the final list
comprehension replaces each id by its `seen` record. -/
def rrf_merge (k : ℚ) (vec lex : List SearchResult) : List SearchResult :=
  (sortDescQ [] (rrfScores k vec lex)).filterMap fun p => dget? (rrfSeen k vec lex) p.1

/-- Spec-side: the summed reciprocal-rank contribution of one ranked list to
one id (`1/(k+r+1)` at each 0-based rank `r` where the id occurs). -/
def rankSum (k : ℚ) : List SearchResult → ℕ → String → ℚ
  | [], _, _ => 0
  | r :: rest, rank, id =>
    (if r.id = id then 1 / (k + rank + 1) else 0) + rankSum k rest (rank + 1) id

/-- Spec-side: the RRF score the specification assigns to an id: the sum of
both lists' reciprocal-rank contributions. -/
def specScore (k : ℚ) (vec lex : List SearchResult) (id : String) : ℚ :=
  rankSum k vec 0 id + rankSum k lex 0 id

/-- The non-empty ids of the given records in first-encounter order,
appended to `ks`. -/
def addKeys : List String → List SearchResult → List String
  | ks, [] => ks
  | ks, r :: rest =>
    if r.id ≠ "" ∧ r.id ∉ ks then addKeys (ks ++ [r.id]) rest else addKeys ks rest

/-- Spec-side: all (non-empty) ids in the order they are first encountered,
vector list before lexical list. -/
def encounterIds (vec lex : List SearchResult) : List String :=
  addKeys [] (vec ++ lex)

/-! ### Chunker (`RAGService._simple_split_text`, `DocumentProcessor.chunk_document`) -/

/-- Python slice-index normalisation: a negative index counts from the end
(clamped at 0), a positive index is clamped at the length. -/
def pyNorm (n : ℕ) (i : ℤ) : ℕ :=
  if i < 0 then (max 0 ((n : ℤ) + i)).toNat else min i.toNat n

/-- Python `text[i:j]` on a sequence of characters. -/
def pySlice (s : List Char) (i j : ℤ) : List Char :=
  (s.take (pyNorm s.length j)).drop (pyNorm s.length i)

/-- Index of the last occurrence, or `none`. -/
def rfindAux (c : Char) : List Char → Option ℕ
  | [] => none
  | x :: xs =>
    match rfindAux c xs with
    | some k => some (k + 1)
    | none => if x = c then some 0 else none

/-- Python `s.rfind(c)`: index of the last occurrence of `c`, `-1` if absent. -/
def rfind (s : List Char) (c : Char) : ℤ :=
  match rfindAux c s with
  | none => -1
  | some k => (k : ℤ)

/-- The `while start < len(text)` loop shared verbatim by
`RAGService._simple_split_text` and `DocumentProcessor.chunk_document`,
with explicit fuel (`none` = the loop did not finish within `fuel`
iterations).  The float comparison `break_point > chunk_size * 0.5` is
exactly `2 * break_point > chunk_size` on integers. -/
def splitLoop (chunkSize overlap : ℕ) (text : List Char) :
    ℕ → ℤ → List (List Char) → Option (List (List Char))
  | 0, _, _ => none
  | fuel + 1, start, chunks =>
    if start < (text.length : ℤ) then
      let endIdx : ℤ := start + chunkSize
      if (text.length : ℤ) ≤ endIdx then
        some (chunks ++ [pySlice text start text.length])
      else
        let chunk := pySlice text start endIdx
        let lastPeriod := rfind chunk '.'
        let lastNewline := rfind chunk '\n'
        let breakPoint := max lastPeriod lastNewline
        let endIdx' := if (chunkSize : ℤ) < 2 * breakPoint then start + breakPoint + 1 else endIdx
        splitLoop chunkSize overlap text fuel (endIdx' - overlap) (chunks ++ [pySlice text start endIdx'])
    else some chunks

/-- `RAGService._simple_split_text(text, chunk_size, overlap)` (fuelled). -/
def simple_split_text (text : List Char) (chunkSize overlap : ℕ) (fuel : ℕ) :
    Option (List (List Char)) :=
  if text.length ≤ chunkSize then some [text] else splitLoop chunkSize overlap text fuel 0 []

/-- `DocumentProcessor.chunk_document(text, chunk_size, overlap)`: its body is
the same algorithm as `_simple_split_text`, line for line (only the default
parameter values differ: 1000/200 instead of 500/100). -/
def chunk_document (text : List Char) (chunkSize overlap : ℕ) (fuel : ℕ) :
    Option (List (List Char)) :=
  simple_split_text text chunkSize overlap fuel

/-! ### The RAG service: configuration, state, operations -/

/-- An entry of a knowledge-point dict produced by `structure_document`
(`{"id": ..., "content": ..., "chunk_index": ..., "tags": []}`). -/
structure KnowledgePoint where
  id : String
  content : String
  chunk_index : ℕ
deriving DecidableEq

/-- One entry of a vector-backend collection:
(id, document text, metadata `document_id`, metadata `chunk_index`). -/
structure VectorEntry where
  id : String
  document : String
  document_id : String
  chunk_index : ℕ
deriving DecidableEq

/-- Configuration/environment of a `RAGService` instance:
`clientPresent` = `self.client` is not `None` (chromadb importable),
`useHybrid` = `self._use_hybrid`, `bm25Available` = `BM25Okapi` is not
`None` (rank_bm25 importable). -/
structure RagConfig where
  clientPresent : Bool
  useHybrid : Bool
  bm25Available : Bool
deriving DecidableEq

/-- Persistent state touched by the service: the vector backend's
collections, and the BM25 sidecar corpus files keyed by file path
(each file holds parallel arrays `ids`, `documents`). -/
structure RagState where
  collections : List (String × List VectorEntry)
  corpora : List (String × (List String × List String))
deriving DecidableEq

/-- `RAGService._bm25_path`: filesystem-safe name
(`c if c.isalnum() or c in "._-" else "_"`), prefixed and suffixed. -/
def bm25Path (collectionName : String) : String :=
  "bm25_corpus_"
    ++ String.mk (collectionName.toList.map fun c =>
        if c.isAlphanum ∨ c = '.' ∨ c = '_' ∨ c = '-' then c else '_')
    ++ ".json"

/-- `RAGService._load_bm25_corpus`: missing or unreadable file gives two
empty lists (absence from `corpora` models both). -/
def loadCorpus (st : RagState) (collectionName : String) : List String × List String :=
  (dget? st.corpora (bm25Path collectionName)).getD ([], [])

/-- `RAGService._save_bm25_corpus`: overwrite the collection's corpus file. -/
def saveCorpus (st : RagState) (collectionName : String)
    (ids documents : List String) : RagState :=
  { st with corpora := dset st.corpora (bm25Path collectionName) (ids, documents) }

/-- `kp["id"].split("_chunk_")[0]`. -/
def splitDocId (id : String) : String :=
  (id.splitOn "_chunk_").headD ""

/-- Python `s.startswith(p)` on character lists. -/
def startsWithChars : List Char → List Char → Bool
  | _, [] => true
  | [], _ :: _ => false
  | c :: cs, p :: ps => c = p && startsWithChars cs ps

/-- Python `s.startswith(p)`. -/
def strStartsWith (s pre : String) : Bool :=
  startsWithChars s.toList pre.toList

/-- `RAGService.add_to_vector_store(knowledge_points, collection_name)`.
`addOk = false` models `collection.add` raising: the exception handler
swallows it and the BM25 append is never reached. -/
def add_to_vector_store (cfg : RagConfig) (st : RagState)
    (knowledgePoints : List KnowledgePoint) (collectionName : String)
    (addOk : Bool) : RagState :=
  if ¬ cfg.clientPresent then st
  else if ¬ addOk then st
  else
    let entries := knowledgePoints.map fun kp =>
      VectorEntry.mk kp.id kp.content (splitDocId kp.id) kp.chunk_index
    let newColls :=
      dset st.collections collectionName
        ((dget? st.collections collectionName).getD [] ++ entries)
    let st1 := { st with collections := newColls }
    if cfg.useHybrid ∧ cfg.bm25Available then
      let c := loadCorpus st1 collectionName
      saveCorpus st1 collectionName
        (c.1 ++ knowledgePoints.map (fun kp => kp.id))
        (c.2 ++ knowledgePoints.map (fun kp => kp.content))
    else st1

/-- `RAGService.delete_document(document_id, collection_name)`.
`vectorDeleteOk = false` models `collection.delete` raising (swallowed);
a missing collection (`get_collection` raising) likewise leaves the vector
side unchanged. -/
def delete_document (cfg : RagConfig) (st : RagState)
    (documentId : String) (collectionName : String)
    (vectorDeleteOk : Bool) : RagState :=
  if ¬ cfg.clientPresent then st
  else
    let st1 :=
      if vectorDeleteOk then
        match dget? st.collections collectionName with
        | none => st
        | some entries =>
          let kept := entries.filter fun e => e.document_id != documentId
          { st with collections := dset st.collections collectionName kept }
      else st
    if cfg.useHybrid ∧ cfg.bm25Available then
      let c := loadCorpus st1 collectionName
      let pre := documentId ++ "_chunk_"
      saveCorpus st1 collectionName
        (c.1.filter fun i => ! strStartsWith i pre)
        (((c.1.zip c.2).filter fun p => ! strStartsWith p.1 pre).map Prod.snd)
    else st1

/-- `RAGService.delete_chunks(document_id, chunk_indices)`.
`deleteOk = false` models `collection.delete` raising (swallowed). -/
def delete_chunks (cfg : RagConfig) (st : RagState)
    (documentId : ℤ) (chunkIndices : List ℤ) (deleteOk : Bool) : RagState :=
  if ¬ cfg.clientPresent ∨ chunkIndices = [] then st
  else
    let collectionName := "doc_" ++ toString documentId
    match dget? st.collections collectionName with
    | none => st
    | some entries =>
      if deleteOk then
        let idsToDelete := chunkIndices.map fun i =>
          toString documentId ++ "_chunk_" ++ toString i
        let kept := entries.filter fun e => ! idsToDelete.contains e.id
        { st with collections := dset st.collections collectionName kept }
      else st

/-- `fetch_k = max(n_results * 2, 10) if self._use_hybrid else n_results`. -/
def fetchK (cfg : RagConfig) (nResults : ℕ) : ℕ :=
  if cfg.useHybrid then max (nResults * 2) 10 else nResults

/-- The count actually passed to `collection.query`:
`n_results = min(fetch_k, 100)`. -/
def vectorQueryArg (cfg : RagConfig) (nResults : ℕ) : ℕ :=
  min (fetchK cfg nResults) 100

/-- `RAGService.search_similar(query, collection_name, n_results)`.
`vecOracle` maps the requested result count to the formatted vector
results (`none` = the query or its formatting raised, caught and treated
as an empty list); `bm25Oracle` is the lexical result list computed by the
BM25 block (`none` = that block raised, caught). -/
def search_similar (cfg : RagConfig) (st : RagState)
    (vecOracle : ℕ → Option (List SearchResult))
    (bm25Oracle : Option (List SearchResult))
    (collectionName : String) (nResults : ℕ) : List SearchResult :=
  if ¬ cfg.clientPresent then []
  else
    let formatted := (vecOracle (vectorQueryArg cfg nResults)).getD []
    if ¬ cfg.useHybrid ∨ ¬ cfg.bm25Available then formatted.take nResults
    else
      let c := loadCorpus st collectionName
      if c.2 = [] then formatted.take nResults
      else
        match bm25Oracle with
        | none => formatted.take nResults
        | some bm25Results => (rrf_merge 60 formatted bm25Results).take nResults

/-- `OpenAICompatibleEmbeddingFunction.__call__(input)`.  `apiResponse`
models the embeddings returned by the OpenAI-compatible endpoint
(`none` = any network/auth/parsing exception, caught by the handler). -/
def embeddingCall (input : List String) (apiResponse : Option (List (List ℚ))) :
    List (List ℚ) :=
  if input = [] then []
  else
    match apiResponse with
    | none => []
    | some data => data

/-! ## Lemmas about the dict model -/

theorem dget?_dset {α : Type} (d : List (String × α)) (key key' : String) (v : α) :
    dget? (dset d key v) key' = if key = key' then some v else dget? d key' := by
  induction d with
  | nil => by_cases h : key = key' <;> simp [dset, dget?, h]
  | cons p rest ih =>
    obtain ⟨k, w⟩ := p
    by_cases hk : k = key <;> by_cases hk' : k = key' <;> by_cases h : key = key' <;>
      simp_all [dset, dget?]

theorem dmem_iff {α : Type} (d : List (String × α)) (key : String) :
    dmem d key = true ↔ key ∈ d.map Prod.fst := by
  induction d with
  | nil => simp [dmem, dget?]
  | cons p rest ih =>
    obtain ⟨k, w⟩ := p
    by_cases hk : k = key
    · subst hk
      simp [dmem, dget?]
    · simp only [dmem, dget?, if_neg hk, List.map_cons, List.mem_cons]
      simp only [dmem] at ih
      constructor
      · intro h
        exact Or.inr (ih.mp h)
      · intro h
        rcases h with h' | h'
        · exact absurd h'.symm hk
        · exact ih.mpr h'

theorem dmem_congr {α β : Type} (d₁ : List (String × α)) (d₂ : List (String × β))
    (key : String) (h : d₁.map Prod.fst = d₂.map Prod.fst) :
    dmem d₁ key = dmem d₂ key := by
  cases hb : dmem d₂ key with
  | true => exact (dmem_iff d₁ key).mpr (h ▸ (dmem_iff d₂ key).mp hb)
  | false =>
    by_contra hne
    have h₁ : dmem d₁ key = true := by
      cases hb' : dmem d₁ key
      · exact absurd (hb' ▸ hb.symm) (by simp_all)
      · rfl
    have : dmem d₂ key = true := (dmem_iff d₂ key).mpr (h ▸ (dmem_iff d₁ key).mp h₁)
    simp_all

theorem dset_keys {α : Type} (d : List (String × α)) (key : String) (v : α) :
    (dset d key v).map Prod.fst =
      if dmem d key then d.map Prod.fst else d.map Prod.fst ++ [key] := by
  induction d with
  | nil => simp [dset, dmem, dget?]
  | cons p rest ih =>
    obtain ⟨k, w⟩ := p
    by_cases hk : k = key
    · simp [dset, dmem, dget?, hk]
    · by_cases hm : dmem rest key <;>
        simp_all [dset, dmem, dget?, hk]

theorem mem_dset {α : Type} {p : String × α} {d : List (String × α)} {key : String} {v : α}
    (h : p ∈ dset d key v) : p ∈ d ∨ p = (key, v) := by
  induction d with
  | nil =>
    simp only [dset, List.mem_singleton] at h
    exact Or.inr h
  | cons q rest ih =>
    obtain ⟨k, w⟩ := q
    by_cases hk : k = key
    · subst hk
      rw [show dset ((k, w) :: rest) k v = (k, v) :: rest by simp [dset]] at h
      rcases List.mem_cons.mp h with h1 | h1
      · exact Or.inr h1
      · exact Or.inl (List.mem_cons_of_mem _ h1)
    · rw [show dset ((k, w) :: rest) key v = (k, w) :: dset rest key v by
        simp [dset, hk]] at h
      rcases List.mem_cons.mp h with h1 | h1
      · exact Or.inl (h1 ▸ List.mem_cons_self _ _)
      · rcases ih h1 with h2 | h2
        · exact Or.inl (List.mem_cons_of_mem _ h2)
        · exact Or.inr h2

theorem dget?_some_mem {α : Type} {d : List (String × α)} {key : String} {v : α}
    (h : dget? d key = some v) : (key, v) ∈ d := by
  induction d with
  | nil => simp [dget?] at h
  | cons q rest ih =>
    obtain ⟨k, w⟩ := q
    by_cases hk : k = key
    · subst hk
      simp only [dget?, eq_self_iff_true, if_true, Option.some.injEq] at h
      subst h
      exact List.mem_cons_self _ _
    · simp only [dget?, if_neg hk] at h
      exact List.mem_cons_of_mem _ (ih h)

theorem dget?_eq_of_mem_nodup {α : Type} {d : List (String × α)}
    (hn : (d.map Prod.fst).Nodup) {k : String} {v : α} (h : (k, v) ∈ d) :
    dget? d k = some v := by
  induction d with
  | nil => simp at h
  | cons q rest ih =>
    obtain ⟨k', w⟩ := q
    simp only [List.map_cons, List.nodup_cons] at hn
    rcases List.mem_cons.mp h with h' | h'
    · injection h' with hk hv
      subst hk
      subst hv
      simp [dget?]
    · have hkmem : k ∈ rest.map Prod.fst := List.mem_map.mpr ⟨(k, v), h', rfl⟩
      have hk' : k' ≠ k := fun he => hn.1 (he ▸ hkmem)
      simp only [dget?, if_neg hk']
      exact ih hn.2 h'

/-! ## Lemmas about the stable descending sort -/

theorem insertDescQ_perm (x : String × ℚ) (l : List (String × ℚ)) :
    (insertDescQ x l).Perm (x :: l) := by
  induction l with
  | nil => exact List.Perm.refl _
  | cons y ys ih =>
    simp only [insertDescQ]
    by_cases h : x.2 ≤ y.2
    · rw [if_pos h]
      exact (ih.cons y).trans (List.Perm.swap x y ys)
    · rw [if_neg h]

theorem sortDescQ_perm (l : List (String × ℚ)) :
    ∀ acc, (sortDescQ acc l).Perm (acc ++ l) := by
  induction l with
  | nil => intro acc; simp [sortDescQ]
  | cons x xs ih =>
    intro acc
    simp only [sortDescQ]
    exact ((ih _).trans (((insertDescQ_perm x acc).append_right xs))).trans
      List.perm_middle.symm

theorem mem_insertDescQ {x y : String × ℚ} {l : List (String × ℚ)}
    (h : y ∈ insertDescQ x l) : y = x ∨ y ∈ l := by
  have := (insertDescQ_perm x l).mem_iff.mp h
  simpa using this

theorem insertDescQ_pairwise {P : String × ℚ → String × ℚ → Prop}
    {x : String × ℚ} {l : List (String × ℚ)}
    (hl : l.Pairwise fun a b => b.2 < a.2 ∨ (a.2 = b.2 ∧ P a b))
    (hx : ∀ y ∈ l, P y x) :
    (insertDescQ x l).Pairwise fun a b => b.2 < a.2 ∨ (a.2 = b.2 ∧ P a b) := by
  induction l with
  | nil => simp [insertDescQ]
  | cons y ys ih =>
    obtain ⟨hy, hys⟩ := List.pairwise_cons.mp hl
    simp only [insertDescQ]
    by_cases h : x.2 ≤ y.2
    · rw [if_pos h]
      refine List.pairwise_cons.mpr ⟨?_, ih hys fun z hz => hx z (List.mem_cons_of_mem y hz)⟩
      intro z hz
      rcases mem_insertDescQ hz with rfl | hz'
      · rcases lt_or_eq_of_le h with hlt | heq
        · exact Or.inl hlt
        · exact Or.inr ⟨heq.symm, hx y (List.mem_cons_self y ys)⟩
      · exact hy z hz'
    · rw [if_neg h]
      have hxy : y.2 < x.2 := lt_of_not_le h
      refine List.pairwise_cons.mpr ⟨?_, hl⟩
      intro z hz
      rcases List.mem_cons.mp hz with rfl | hz'
      · exact Or.inl hxy
      · rcases hy z hz' with hlt | ⟨heq, _⟩
        · exact Or.inl (hlt.trans hxy)
        · exact Or.inl (heq ▸ hxy)

theorem sortDescQ_pairwise_aux {P : String × ℚ → String × ℚ → Prop}
    (l : List (String × ℚ)) :
    ∀ acc, l.Pairwise P →
      (acc.Pairwise fun a b => b.2 < a.2 ∨ (a.2 = b.2 ∧ P a b)) →
      (∀ y ∈ acc, ∀ x ∈ l, P y x) →
      (sortDescQ acc l).Pairwise fun a b => b.2 < a.2 ∨ (a.2 = b.2 ∧ P a b) := by
  induction l with
  | nil =>
    intro acc _ hacc _
    simpa [sortDescQ] using hacc
  | cons x xs ih =>
    intro acc hP hacc hcross
    obtain ⟨hx, hxs⟩ := List.pairwise_cons.mp hP
    simp only [sortDescQ]
    refine ih _ hxs
      (insertDescQ_pairwise hacc fun y hy => hcross y hy x (List.mem_cons_self x xs)) ?_
    intro y hy z hz
    rcases mem_insertDescQ hy with rfl | hy'
    · exact hx z hz
    · exact hcross y hy' z (List.mem_cons_of_mem x hz)

theorem sortDescQ_pairwise {P : String × ℚ → String × ℚ → Prop}
    {l : List (String × ℚ)} (h : l.Pairwise P) :
    (sortDescQ [] l).Pairwise fun a b => b.2 < a.2 ∨ (a.2 = b.2 ∧ P a b) :=
  sortDescQ_pairwise_aux l [] h (by simp) (by simp)

/-! ## Lemmas about first-encounter key order -/

theorem addKeys_append (a b : List SearchResult) :
    ∀ ks, addKeys ks (a ++ b) = addKeys (addKeys ks a) b := by
  induction a with
  | nil => intro ks; simp [addKeys]
  | cons r rest ih =>
    intro ks
    simp only [List.cons_append, addKeys]
    split
    · exact ih _
    · exact ih _

theorem mem_addKeys_of_mem (rs : List SearchResult) :
    ∀ ks, ∀ x ∈ ks, x ∈ addKeys ks rs := by
  induction rs with
  | nil => intro ks x hx; simpa [addKeys] using hx
  | cons r rest ih =>
    intro ks x hx
    simp only [addKeys]
    split
    · exact ih _ x (List.mem_append_left _ hx)
    · exact ih _ x hx

theorem addKeys_nodup (rs : List SearchResult) :
    ∀ ks, ks.Nodup → (addKeys ks rs).Nodup := by
  induction rs with
  | nil => intro ks h; simpa [addKeys] using h
  | cons r rest ih =>
    intro ks h
    simp only [addKeys]
    split
    · rename_i hc
      refine ih _ ?_
      simp only [List.nodup_append, List.nodup_cons, List.nodup_nil]
      exact ⟨h, ⟨by simp, by simp⟩, by
        intro x hx hx'
        simp only [List.mem_singleton] at hx'
        exact hc.2 (hx' ▸ hx)⟩
    · exact ih _ h

theorem addKeys_ne_empty (rs : List SearchResult) :
    ∀ ks, (∀ x ∈ ks, x ≠ "") → ∀ x ∈ addKeys ks rs, x ≠ "" := by
  induction rs with
  | nil => intro ks h x hx; exact h x (by simpa [addKeys] using hx)
  | cons r rest ih =>
    intro ks h x hx
    simp only [addKeys] at hx
    revert hx
    split
    · rename_i hc
      intro hx
      refine ih _ ?_ x hx
      intro y hy
      rcases List.mem_append.mp hy with hy' | hy'
      · exact h y hy'
      · simpa using (List.mem_singleton.mp hy') ▸ hc.1
    · intro hx
      exact ih _ h x hx

theorem nodup_pairwise_indexOf {l : List String} (h : l.Nodup) :
    l.Pairwise fun a b => l.indexOf a < l.indexOf b := by
  induction l with
  | nil => simp
  | cons x xs ih =>
    obtain ⟨hx, hxs⟩ := List.nodup_cons.mp h
    refine List.pairwise_cons.mpr ⟨?_, ?_⟩
    · intro b hb
      have hbx : x ≠ b := fun he => hx (he ▸ hb)
      rw [List.indexOf_cons_self, List.indexOf_cons_ne _ hbx]
      exact Nat.succ_pos _
    · refine (ih hxs).imp_of_mem ?_
      intro a b ha hb hab
      have hax : x ≠ a := fun he => hx (he ▸ ha)
      have hbx : x ≠ b := fun he => hx (he ▸ hb)
      rw [List.indexOf_cons_ne _ hax, List.indexOf_cons_ne _ hbx]
      exact Nat.succ_lt_succ hab

/-! ## Lemmas about the RRF passes -/

theorem rrfPass_scores_lookup (k : ℚ) (ow : Bool) (rs : List SearchResult) :
    ∀ (rank : ℕ) (sc : List (String × ℚ)) (sn : List (String × SearchResult))
      (id : String), id ≠ "" →
      dgetD (rrfPass k ow rs rank sc sn).1 id 0 = dgetD sc id 0 + rankSum k rs rank id := by
  induction rs with
  | nil =>
    intro rank sc sn id _
    simp [rrfPass, rankSum]
  | cons r rest ih =>
    intro rank sc sn id hid
    by_cases hr : r.id = ""
    · have hrid : ¬ (r.id = id) := fun he => hid (he ▸ hr)
      simp only [rrfPass, if_pos hr, rankSum, if_neg hrid]
      rw [ih _ _ _ _ hid]
      ring
    · simp only [rrfPass, if_neg hr, rankSum]
      rw [ih _ _ _ _ hid]
      unfold dgetD
      rw [dget?_dset]
      by_cases hri : r.id = id
      · rw [if_pos hri, if_pos hri]
        simp only [Option.getD_some]
        rw [hri]
        ring
      · rw [if_neg hri, if_neg hri]
        ring

theorem rrfPass_scores_keys (k : ℚ) (ow : Bool) (rs : List SearchResult) :
    ∀ (rank : ℕ) (sc : List (String × ℚ)) (sn : List (String × SearchResult)),
      ((rrfPass k ow rs rank sc sn).1).map Prod.fst = addKeys (sc.map Prod.fst) rs := by
  induction rs with
  | nil =>
    intro rank sc sn
    simp [rrfPass, addKeys]
  | cons r rest ih =>
    intro rank sc sn
    by_cases hr : r.id = ""
    · simp only [rrfPass, if_pos hr, addKeys]
      rw [ih]
      rw [if_neg (by simp [hr])]
    · simp only [rrfPass, if_neg hr, addKeys]
      rw [ih]
      rw [dset_keys]
      by_cases hm : dmem sc r.id = true
      · rw [if_pos hm]
        have hmem : r.id ∈ sc.map Prod.fst := (dmem_iff _ _).mp hm
        rw [if_neg (by simp [hmem])]
      · rw [if_neg (by simpa using hm)]
        have hmem : r.id ∉ sc.map Prod.fst := fun hc => hm ((dmem_iff _ _).mpr hc)
        rw [if_pos ⟨hr, hmem⟩]

theorem rrfPass_keys_eq (k : ℚ) (ow : Bool) (rs : List SearchResult) :
    ∀ (rank : ℕ) (sc : List (String × ℚ)) (sn : List (String × SearchResult)),
      sc.map Prod.fst = sn.map Prod.fst →
      ((rrfPass k ow rs rank sc sn).1).map Prod.fst
        = ((rrfPass k ow rs rank sc sn).2).map Prod.fst := by
  induction rs with
  | nil =>
    intro rank sc sn h
    simpa [rrfPass] using h
  | cons r rest ih =>
    intro rank sc sn h
    by_cases hr : r.id = ""
    · simp only [rrfPass, if_pos hr]
      exact ih _ _ _ h
    · simp only [rrfPass, if_neg hr]
      apply ih
      have hm : dmem sc r.id = dmem sn r.id := dmem_congr _ _ _ h
      cases hb : dmem sn r.id with
      | true =>
        rw [dset_keys, if_pos (by rw [hm]; exact hb)]
        cases ow with
        | true =>
          simp only [Bool.true_or, eq_self_iff_true, if_true]
          rw [dset_keys, if_pos hb, h]
        | false =>
          simp only [Bool.false_or, Bool.not_true]
          rw [if_neg (by simp), h]
      | false =>
        have hmc : dmem sc r.id = false := by rw [hm, hb]
        rw [dset_keys, if_neg (by simp [hmc])]
        simp only [Bool.not_false, Bool.or_true, eq_self_iff_true, if_true]
        rw [dset_keys, if_neg (by simp [hb]), h]

theorem rrfPass_seen_ids (k : ℚ) (ow : Bool) (rs : List SearchResult) :
    ∀ (rank : ℕ) (sc : List (String × ℚ)) (sn : List (String × SearchResult)),
      (∀ p ∈ sn, (p.2).id = p.1) →
      ∀ p ∈ (rrfPass k ow rs rank sc sn).2, (p.2).id = p.1 := by
  induction rs with
  | nil =>
    intro rank sc sn h
    simpa [rrfPass] using h
  | cons r rest ih =>
    intro rank sc sn h
    by_cases hr : r.id = ""
    · simp only [rrfPass, if_pos hr]
      exact ih _ _ _ h
    · simp only [rrfPass, if_neg hr]
      apply ih
      split
      · intro p hp
        rcases mem_dset hp with hp' | hp'
        · exact h p hp'
        · subst hp'
          rfl
      · exact h

theorem filterMap_map_eq {α β γ : Type} {l : List α} {f : α → Option β} {g : β → γ}
    {h : α → γ} (H : ∀ a ∈ l, ∃ b, f a = some b ∧ g b = h a) :
    (l.filterMap f).map g = l.map h := by
  induction l with
  | nil => simp
  | cons a l ih =>
    obtain ⟨b, hf, hg⟩ := H a (List.mem_cons_self a l)
    simp only [List.filterMap_cons, hf, List.map_cons]
    rw [hg]
    exact congrArg _ (ih fun x hx => H x (List.mem_cons_of_mem a hx))

theorem rrfScores_keys (k : ℚ) (vec lex : List SearchResult) :
    (rrfScores k vec lex).map Prod.fst = encounterIds vec lex := by
  unfold rrfScores encounterIds
  rw [rrfPass_scores_keys, rrfPass_scores_keys, addKeys_append]
  simp

theorem rrfScores_lookup (k : ℚ) (vec lex : List SearchResult) (id : String)
    (hid : id ≠ "") :
    dgetD (rrfScores k vec lex) id 0 = specScore k vec lex id := by
  unfold rrfScores specScore
  rw [rrfPass_scores_lookup _ _ _ _ _ _ _ hid, rrfPass_scores_lookup _ _ _ _ _ _ _ hid]
  simp [dgetD, dget?]

theorem rrfSeen_ids (k : ℚ) (vec lex : List SearchResult) :
    ∀ p ∈ rrfSeen k vec lex, (p.2).id = p.1 := by
  unfold rrfSeen
  exact rrfPass_seen_ids _ _ _ _ _ _
    (rrfPass_seen_ids _ _ _ _ _ _ (by simp))

theorem rrfSeen_keys (k : ℚ) (vec lex : List SearchResult) :
    (rrfScores k vec lex).map Prod.fst = (rrfSeen k vec lex).map Prod.fst := by
  unfold rrfScores rrfSeen
  exact rrfPass_keys_eq _ _ _ _ _ _
    (rrfPass_keys_eq _ _ _ _ _ _ (by simp))

theorem rrfScores_mem_val {k : ℚ} {vec lex : List SearchResult} {p : String × ℚ}
    (hp : p ∈ rrfScores k vec lex) :
    p.1 ≠ "" ∧ p.2 = specScore k vec lex p.1 := by
  have hkeys := rrfScores_keys k vec lex
  have hkmem : p.1 ∈ (rrfScores k vec lex).map Prod.fst :=
    List.mem_map.mpr ⟨p, hp, rfl⟩
  have hne : p.1 ≠ "" := by
    refine addKeys_ne_empty (vec ++ lex) [] (by simp) p.1 ?_
    rw [hkeys] at hkmem
    exact hkmem
  have hnd : ((rrfScores k vec lex).map Prod.fst).Nodup := by
    rw [hkeys]
    exact addKeys_nodup _ [] (by simp)
  have hget : dget? (rrfScores k vec lex) p.1 = some p.2 :=
    dget?_eq_of_mem_nodup hnd (by rwa [Prod.mk.eta])
  have hval := rrfScores_lookup k vec lex p.1 hne
  rw [dgetD, hget, Option.getD_some] at hval
  exact ⟨hne, hval⟩

theorem rrf_merge_ids (k : ℚ) (vec lex : List SearchResult) :
    ((rrf_merge k vec lex).map fun r => r.id)
      = (sortDescQ [] (rrfScores k vec lex)).map Prod.fst := by
  unfold rrf_merge
  apply filterMap_map_eq
  intro p hp
  have hmem : p ∈ rrfScores k vec lex := by
    have := (sortDescQ_perm _ []).mem_iff.mp hp
    simpa using this
  have hkey : p.1 ∈ (rrfSeen k vec lex).map Prod.fst := by
    rw [← rrfSeen_keys]
    exact List.mem_map.mpr ⟨p, hmem, rfl⟩
  have hsome : dmem (rrfSeen k vec lex) p.1 = true := (dmem_iff _ _).mpr hkey
  unfold dmem at hsome
  obtain ⟨r, hr⟩ := Option.isSome_iff_exists.mp hsome
  exact ⟨r, hr, rrfSeen_ids k vec lex (p.1, r) (dget?_some_mem hr)⟩

/-- C1: for ranked lists with non-empty ids, `_rrf_merge` with `k = 60`
assigns each id the score `Σ 1/(60+r+1)` over its ranks in the two lists,
and returns all first-encountered ids sorted by descending score with ties
broken by first-encounter order (vector list first); on the spec's example
(vector `[a,b,c]`, lexical `[b,d]`) the merged order is `[b,a,d,c]`. -/
theorem rrf_merge_matches_spec :
    (∀ vec lex : List SearchResult,
      (∀ r ∈ vec, r.id ≠ "") → (∀ r ∈ lex, r.id ≠ "") →
      (∀ id, id ≠ "" →
        dgetD (rrfScores 60 vec lex) id 0 = specScore 60 vec lex id) ∧
      ((rrf_merge 60 vec lex).map fun r => r.id).Perm (encounterIds vec lex) ∧
      ((rrf_merge 60 vec lex).map fun r => r.id).Pairwise (fun a b =>
        specScore 60 vec lex b < specScore 60 vec lex a ∨
        (specScore 60 vec lex a = specScore 60 vec lex b ∧
          (encounterIds vec lex).indexOf a < (encounterIds vec lex).indexOf b))) ∧
    ((rrf_merge 60 [⟨"a", "A"⟩, ⟨"b", "B"⟩, ⟨"c", "C"⟩]
        [⟨"b", "B2"⟩, ⟨"d", "D"⟩]).map fun r => r.id) = ["b", "a", "d", "c"] := by
  constructor
  · intro vec lex _ _
    refine ⟨rrfScores_lookup 60 vec lex, ?_, ?_⟩
    · rw [rrf_merge_ids, ← rrfScores_keys 60 vec lex]
      exact ((sortDescQ_perm _ []).map Prod.fst).trans (by simp)
    · have hnd : (encounterIds vec lex).Nodup := addKeys_nodup _ [] (by simp)
      have hpw : (rrfScores 60 vec lex).Pairwise
          (fun p q => (encounterIds vec lex).indexOf p.1
            < (encounterIds vec lex).indexOf q.1) := by
        have h1 : ((rrfScores 60 vec lex).map Prod.fst).Pairwise
            (fun a b => (encounterIds vec lex).indexOf a
              < (encounterIds vec lex).indexOf b) := by
          rw [rrfScores_keys 60 vec lex]
          exact nodup_pairwise_indexOf hnd
        exact (@List.pairwise_map _ _ Prod.fst
          (fun a b => (encounterIds vec lex).indexOf a < (encounterIds vec lex).indexOf b)
          (rrfScores 60 vec lex)).mp h1
      have hsorted := sortDescQ_pairwise hpw
      have hconv : (sortDescQ [] (rrfScores 60 vec lex)).Pairwise
          (fun p q => specScore 60 vec lex q.1 < specScore 60 vec lex p.1 ∨
            (specScore 60 vec lex p.1 = specScore 60 vec lex q.1 ∧
              (encounterIds vec lex).indexOf p.1 < (encounterIds vec lex).indexOf q.1)) := by
        refine hsorted.imp_of_mem ?_
        intro p q hp hq hpq
        have hpmem : p ∈ rrfScores 60 vec lex := by
          have := (sortDescQ_perm _ []).mem_iff.mp hp
          simpa using this
        have hqmem : q ∈ rrfScores 60 vec lex := by
          have := (sortDescQ_perm _ []).mem_iff.mp hq
          simpa using this
        have hp' := rrfScores_mem_val hpmem
        have hq' := rrfScores_mem_val hqmem
        rw [hp'.2, hq'.2] at hpq
        exact hpq
      rw [rrf_merge_ids]
      exact List.pairwise_map.mpr hconv
  · simp only [rrf_merge, rrfScores, rrfSeen, rrfPass, dset, dget?, dgetD, dmem,
      String.reduceEq, reduceIte, Option.getD, Option.isSome, Bool.not_false,
      Bool.or_true, Bool.true_or, Bool.or_false, Bool.false_or]
    norm_num [insertDescQ, sortDescQ]
    simp [List.filterMap]

/-- Witness for C1: the general statement applied to the spec's example
lists, with the non-empty-id hypotheses discharged by computation. -/
theorem rrf_merge_matches_spec_witness :
    ((rrf_merge 60 [⟨"a", "A"⟩, ⟨"b", "B"⟩, ⟨"c", "C"⟩]
        [⟨"b", "B2"⟩, ⟨"d", "D"⟩]).map fun r => r.id).Perm
      (encounterIds [⟨"a", "A"⟩, ⟨"b", "B"⟩, ⟨"c", "C"⟩] [⟨"b", "B2"⟩, ⟨"d", "D"⟩]) :=
  (rrf_merge_matches_spec.1 _ _ (by decide) (by decide)).2.1

/-! ## Claims about `search_similar`, the vector client and the embedder -/

/-- C2: whenever hybrid mode is disabled, or the BM25 library is
unavailable, or the collection's lexical corpus is empty, `search_similar`
returns exactly the raw vector-query result list truncated to `n_results`,
regardless of lexical corpus contents. -/
theorem search_similar_degrades_to_vector :
    ∀ (cfg : RagConfig) (st : RagState) (vecOracle : ℕ → Option (List SearchResult))
      (bm25Oracle : Option (List SearchResult)) (cn : String) (n : ℕ)
      (l : List SearchResult),
      cfg.clientPresent = true →
      (cfg.useHybrid = false ∨ cfg.bm25Available = false ∨ loadCorpus st cn = ([], [])) →
      vecOracle (vectorQueryArg cfg n) = some l →
      search_similar cfg st vecOracle bm25Oracle cn n = l.take n := by
  intro cfg st vo bo cn n l hc hdeg hor
  rcases hdeg with h | h | h
  · simp [search_similar, hc, hor, h]
  · simp [search_similar, hc, hor, h]
  · by_cases hu : cfg.useHybrid = false
    · simp [search_similar, hc, hor, hu]
    · by_cases hb : cfg.bm25Available = false
      · simp [search_similar, hc, hor, hb]
      · have hu' : cfg.useHybrid = true := by
          revert hu
          cases cfg.useHybrid <;> simp
        have hb' : cfg.bm25Available = true := by
          revert hb
          cases cfg.bm25Available <;> simp
        simp [search_similar, hc, hor, hu', hb', h]

/-- Witness for C2: a concrete degraded query (hybrid disabled) returning
the truncated vector results. -/
theorem search_similar_degrades_to_vector_witness :
    search_similar ⟨true, false, true⟩ ⟨[], []⟩
      (fun _ => some [⟨"x", "X"⟩, ⟨"y", "Y"⟩]) none "col" 1
      = [SearchResult.mk "x" "X", SearchResult.mk "y" "Y"].take 1 :=
  search_similar_degrades_to_vector ⟨true, false, true⟩ ⟨[], []⟩
    (fun _ => some [⟨"x", "X"⟩, ⟨"y", "Y"⟩]) none "col" 1
    [⟨"x", "X"⟩, ⟨"y", "Y"⟩] rfl (Or.inl rfl) rfl

/-- C3 counterexample: with hybrid mode enabled and `n_results = 51`, the
vector sub-query requests `min(fetch_k, 100) = 100`, not
`fetch_k = max(51 * 2, 10) = 102` as the claim states. -/
theorem vectorQueryArg_counterexample :
    vectorQueryArg ⟨true, true, true⟩ 51 = 100 ∧
    max (51 * 2) 10 = 102 ∧ (100 : ℕ) ≠ 102 :=
  ⟨by decide, by decide, by decide⟩

/-- C3 amended: the vector sub-query requests exactly `min(fetch_k, 100)`
with `fetch_k = max(n_results * 2, 10)` under hybrid mode and
`fetch_k = n_results` otherwise; `search_similar` consults the vector
backend only at that count. -/
theorem vectorQueryArg_spec :
    ∀ (cfg : RagConfig) (n : ℕ),
      (cfg.useHybrid = true → vectorQueryArg cfg n = min (max (n * 2) 10) 100) ∧
      (cfg.useHybrid = false → vectorQueryArg cfg n = min n 100) ∧
      (∀ st vecOracle vecOracle' bm25Oracle cn,
        vecOracle (vectorQueryArg cfg n) = vecOracle' (vectorQueryArg cfg n) →
        search_similar cfg st vecOracle bm25Oracle cn n
          = search_similar cfg st vecOracle' bm25Oracle cn n) := by
  intro cfg n
  refine ⟨fun h => by simp [vectorQueryArg, fetchK, h],
    fun h => by simp [vectorQueryArg, fetchK, h], ?_⟩
  intro st vo vo' bo cn h
  unfold search_similar
  rw [h]

/-- Witness for C3 (amended): at `n_results = 51` under hybrid mode the
requested count is `min(max(102, 10), 100)`. -/
theorem vectorQueryArg_spec_witness :
    vectorQueryArg ⟨true, true, true⟩ 51 = min (max (51 * 2) 10) 100 :=
  (vectorQueryArg_spec ⟨true, true, true⟩ 51).1 rfl

/-- C4: with the vector client absent, `add_to_vector_store` is a complete
no-op on the state and `search_similar` returns the empty sequence, for
every input. -/
theorem client_absent_noop :
    ∀ (cfg : RagConfig) (st : RagState), cfg.clientPresent = false →
      (∀ kps cn ok, add_to_vector_store cfg st kps cn ok = st) ∧
      (∀ vecOracle bm25Oracle cn n,
        search_similar cfg st vecOracle bm25Oracle cn n = []) := by
  intro cfg st h
  constructor
  · intro kps cn ok
    simp [add_to_vector_store, h]
  · intro vo bo cn n
    simp [search_similar, h]

/-- Witness for C4: a concrete offline service. -/
theorem client_absent_noop_witness :
    add_to_vector_store ⟨false, true, true⟩ ⟨[], []⟩ [] "col" true = ⟨[], []⟩ ∧
    search_similar ⟨false, true, true⟩ ⟨[], []⟩
      (fun _ => some [⟨"x", "X"⟩]) none "col" 5 = [] :=
  ⟨(client_absent_noop ⟨false, true, true⟩ ⟨[], []⟩ rfl).1 [] "col" true,
   (client_absent_noop ⟨false, true, true⟩ ⟨[], []⟩ rfl).2
     (fun _ => some [⟨"x", "X"⟩]) none "col" 5⟩

/-- C5: the embedding function returns the empty sequence (not an error) on
any network/auth/parsing failure, so output length need not equal input
length (the embedding is a total function: it cannot raise). -/
theorem embeddingCall_failure_empty :
    (∀ input, embeddingCall input none = []) ∧
    ¬ (∀ input apiResponse,
        (embeddingCall input apiResponse).length = input.length) := by
  constructor
  · intro input
    by_cases h : input = [] <;> simp [embeddingCall, h]
  · intro hall
    have h1 := hall ["x"] none
    simp [embeddingCall] at h1

/-- C10: if the vector backend's `add` raises, the whole `try` block is
abandoned, so the lexical corpus append is skipped and every collection's
corpus file is unchanged. -/
theorem add_failure_skips_corpus :
    ∀ (cfg : RagConfig) (st : RagState) (kps : List KnowledgePoint) (cn : String),
      (add_to_vector_store cfg st kps cn false).corpora = st.corpora := by
  intro cfg st kps cn
  by_cases h : cfg.clientPresent <;> simp [add_to_vector_store, h]

/-- C9: `delete_chunks` never touches any lexical corpus file and touches
no vector collection other than `doc_{document_id}`. -/
theorem delete_chunks_no_corpus_cascade :
    ∀ (cfg : RagConfig) (st : RagState) (documentId : ℤ) (idxs : List ℤ) (ok : Bool),
      idxs ≠ [] →
      (delete_chunks cfg st documentId idxs ok).corpora = st.corpora ∧
      (∀ name, name ≠ "doc_" ++ toString documentId →
        dget? (delete_chunks cfg st documentId idxs ok).collections name
          = dget? st.collections name) := by
  intro cfg st d idxs ok _
  constructor
  · unfold delete_chunks
    split
    · rfl
    · cases hdg : dget? st.collections ("doc_" ++ toString d) with
      | none => simp [hdg]
      | some entries => cases ok <;> simp [hdg]
  · intro name hname
    unfold delete_chunks
    split
    · rfl
    · cases hdg : dget? st.collections ("doc_" ++ toString d) with
      | none => simp [hdg]
      | some entries =>
        cases ok
        · simp [hdg]
        · simp only [hdg, eq_self_iff_true, if_true]
          rw [dget?_dset, if_neg (fun he => hname he.symm)]

/-- Witness for C9: a concrete partial chunk deletion. -/
theorem delete_chunks_no_corpus_cascade_witness :
    (delete_chunks ⟨true, true, true⟩
        ⟨[("doc_7", [⟨"7_chunk_0", "t", "7", 0⟩])],
          [(bm25Path "doc_7", (["7_chunk_0"], ["t"]))]⟩ 7 [0] true).corpora
      = [(bm25Path "doc_7", (["7_chunk_0"], ["t"]))] :=
  (delete_chunks_no_corpus_cascade ⟨true, true, true⟩
    ⟨[("doc_7", [⟨"7_chunk_0", "t", "7", 0⟩])],
      [(bm25Path "doc_7", (["7_chunk_0"], ["t"]))]⟩ 7 [0] true (by simp)).1

/-! ## Claims about `delete_document` and the corpus -/

theorem filter_zip_snd (p : String → Bool) :
    ∀ (ids docs : List String),
      (ids.filter fun i => p i).zip
          (((ids.zip docs).filter fun q => p q.1).map Prod.snd)
        = (ids.zip docs).filter fun q => p q.1 := by
  intro ids
  induction ids with
  | nil => intro docs; simp
  | cons i ids ih =>
    intro docs
    cases docs with
    | nil => simp
    | cons d docs =>
      by_cases hp : p i = true
      · simp [hp, ih]
      · simp only [Bool.not_eq_true] at hp
        simp [hp, ih]

theorem loadCorpus_saveCorpus_self (st : RagState) (cn : String)
    (ids docs : List String) :
    loadCorpus (saveCorpus st cn ids docs) cn = (ids, docs) := by
  simp [loadCorpus, saveCorpus, dget?_dset]

/-- After `delete_document` with the client present, hybrid enabled and
BM25 available, the corpus at the collection is exactly the old corpus with
the prefixed entries filtered out. -/
theorem delete_document_corpus_eq (cfg : RagConfig) (st : RagState)
    (documentId cn : String) (ok : Bool)
    (h1 : cfg.clientPresent = true) (h2 : cfg.useHybrid = true)
    (h3 : cfg.bm25Available = true) :
    loadCorpus (delete_document cfg st documentId cn ok) cn
      = ((loadCorpus st cn).1.filter fun i =>
            ! strStartsWith i (documentId ++ "_chunk_"),
         (((loadCorpus st cn).1.zip (loadCorpus st cn).2).filter fun q =>
            ! strStartsWith q.1 (documentId ++ "_chunk_")).map Prod.snd) := by
  unfold delete_document
  simp only [h1, h2, h3, not_true, Bool.not_true, if_false, and_self, if_true,
    eq_self_iff_true, ite_false, ite_true]
  cases ok with
  | false =>
    simp [loadCorpus_saveCorpus_self]
  | true =>
    cases hdg : dget? st.collections cn with
    | none => simp [loadCorpus_saveCorpus_self]
    | some entries =>
      simp only [eq_self_iff_true, if_true]
      rw [loadCorpus_saveCorpus_self]
      have hcorp :
          ∀ colls : List (String × List VectorEntry),
            loadCorpus { st with collections := colls } cn = loadCorpus st cn :=
        fun _ => rfl
      rw [hcorp]

/-- C6 counterexample: with hybrid mode disabled, `delete_document` never
touches the corpus file, so an id carrying the document's chunk prefix
survives the call. -/
theorem delete_document_corpus_counterexample :
    (loadCorpus
        (delete_document ⟨true, false, true⟩
          ⟨[], [(bm25Path "col", (["d_chunk_0"], ["x"]))]⟩ "d" "col" true)
        "col").1 = ["d_chunk_0"] ∧
    strStartsWith "d_chunk_0" ("d" ++ "_chunk_") = true := by
  constructor
  · rfl
  · decide

/-- C6 amended: when the vector client is present, hybrid mode is enabled
and the BM25 library is available, after `delete_document` the collection's
lexical corpus contains no id with prefix `"{document_id}_chunk_"`, and
every entry not bearing that prefix is retained with its text. -/
theorem delete_document_corpus_amended :
    ∀ (cfg : RagConfig) (st : RagState) (documentId cn : String) (ok : Bool),
      cfg.clientPresent = true → cfg.useHybrid = true → cfg.bm25Available = true →
      (∀ i ∈ (loadCorpus (delete_document cfg st documentId cn ok) cn).1,
        strStartsWith i (documentId ++ "_chunk_") = false) ∧
      (loadCorpus (delete_document cfg st documentId cn ok) cn).1.zip
          (loadCorpus (delete_document cfg st documentId cn ok) cn).2
        = ((loadCorpus st cn).1.zip (loadCorpus st cn).2).filter
            fun q => ! strStartsWith q.1 (documentId ++ "_chunk_") := by
  intro cfg st d cn ok h1 h2 h3
  rw [delete_document_corpus_eq cfg st d cn ok h1 h2 h3]
  constructor
  · intro i hi
    have := List.of_mem_filter hi
    simpa using this
  · exact filter_zip_snd _ _ _

/-- Witness for C6 (amended): a concrete corpus holding one prefixed and
one unrelated entry. -/
theorem delete_document_corpus_amended_witness :
    (∀ i ∈ (loadCorpus
        (delete_document ⟨true, true, true⟩
          ⟨[], [(bm25Path "col", (["d_chunk_0", "keep"], ["x", "y"]))]⟩
          "d" "col" true) "col").1,
      strStartsWith i ("d" ++ "_chunk_") = false) ∧
    (loadCorpus
        (delete_document ⟨true, true, true⟩
          ⟨[], [(bm25Path "col", (["d_chunk_0", "keep"], ["x", "y"]))]⟩
          "d" "col" true) "col").1.zip
      (loadCorpus
        (delete_document ⟨true, true, true⟩
          ⟨[], [(bm25Path "col", (["d_chunk_0", "keep"], ["x", "y"]))]⟩
          "d" "col" true) "col").2
      = ((loadCorpus
            ⟨[], [(bm25Path "col", (["d_chunk_0", "keep"], ["x", "y"]))]⟩ "col").1.zip
          (loadCorpus
            ⟨[], [(bm25Path "col", (["d_chunk_0", "keep"], ["x", "y"]))]⟩ "col").2).filter
          fun q => ! strStartsWith q.1 ("d" ++ "_chunk_") :=
  delete_document_corpus_amended ⟨true, true, true⟩
    ⟨[], [(bm25Path "col", (["d_chunk_0", "keep"], ["x", "y"]))]⟩
    "d" "col" true rfl rfl rfl

/-! ## Claims about the chunker -/

/-- C7 counterexample: both chunkers return the one-element sequence
`[""]` on the empty string (the `len(text) <= chunk_size` passthrough),
not the empty sequence. -/
theorem chunk_empty_counterexample :
    simple_split_text [] 500 100 1 = some [[]] ∧
    chunk_document [] 1000 200 1 = some [[]] ∧
    some [([] : List Char)] ≠ some ([] : List (List Char)) := by
  refine ⟨rfl, rfl, by simp⟩

/-- C7 amended: the chunker applied to the empty string yields the
single-element sequence containing the empty string, for every
configuration and any fuel. -/
theorem chunk_empty_amended :
    ∀ (chunkSize overlap fuel : ℕ),
      simple_split_text [] chunkSize overlap fuel = some [[]] ∧
      chunk_document [] chunkSize overlap fuel = some [[]] := by
  intro cs ov fuel
  constructor <;> simp [simple_split_text, chunk_document]

/-- C8: the sliding-window loop diverges on the 14-character text
`"aaaaaa.bbbcccc"` with `target_size = 10` and `overlap = 7`
(which satisfy `0 ≤ overlap < target_size`): the break-point cut gives
`end = 7` and `start = end - overlap = 0` again, so the loop re-enters the
same state forever and no amount of fuel completes it. -/
theorem split_text_diverges :
    ∀ fuel : ℕ, simple_split_text ("aaaaaa.bbbcccc".toList) 10 7 fuel = none := by
  have hstep : ∀ (fuel : ℕ) (acc : List (List Char)),
      splitLoop 10 7 ("aaaaaa.bbbcccc".toList) (fuel + 1) 0 acc
        = splitLoop 10 7 ("aaaaaa.bbbcccc".toList) fuel 0
            (acc ++ [pySlice ("aaaaaa.bbbcccc".toList) 0 7]) := by
    intro fuel acc
    rfl
  have hloop : ∀ (fuel : ℕ) (acc : List (List Char)),
      splitLoop 10 7 ("aaaaaa.bbbcccc".toList) fuel 0 acc = none := by
    intro fuel
    induction fuel with
    | zero => intro acc; rfl
    | succ n ih =>
      intro acc
      rw [hstep]
      exact ih _
  intro fuel
  unfold simple_split_text
  rw [if_neg (by decide)]
  exact hloop fuel []

end BioForge
